import Mathlib

/-!
Shallow embedding of the sparse-vector codec in `src/sparse.rs` of the
milvus-sdk-rust repository, with proofs of its specified properties.

Modelling conventions:
* A Rust `u32` is a `Nat`; well-formedness hypotheses `< 2 ^ 32` appear in
  theorems whose truth depends on the 32-bit range.
* A Rust `f32` value is modelled by its 32-bit IEEE-754 bit pattern, a `Nat`
  below `2 ^ 32`.  The codec never performs floating-point arithmetic or
  comparison on values — it only moves their four little-endian bytes — so
  the bit pattern is a faithful model.  `isNaN32` recognises NaN patterns.
* A `Vec<u8>` is a `List Nat` of values below 256 where that matters.
* Rust's `sort_by_key` is a stable sort; it is modelled by the stable
  `List.mergeSort` keyed on the index component.
* `Result<T>` is `Except Error T`.  The Rust variant
  `Error::SparseVectorError(String)` formats the offending byte length into
  its message, so the model carries that length directly.
-/

namespace Milvus

/-- A sparse vector row: (index, value-bit-pattern) pairs.
Models `pub type SparseVector = Vec<(u32, f32)>`. -/
abbrev SparseVector := List (Nat × Nat)

/-- The wire message `SparseFloatArray`: per-row byte buffers plus the
declared dimension (`i64`). -/
structure SparseFloatArray where
  contents : List (List Nat)
  dim : Int
deriving DecidableEq

/-- The SDK error type, restricted to the variant the codec raises.  The Rust
`Error::SparseVectorError` message embeds the offending byte length
(`"... must be multiple of 8, got {n}"`); the model carries that length. -/
inductive Error where
  | SparseVectorError : Nat → Error
deriving DecidableEq

/-- `u32::from_le_bytes [b0, b1, b2, b3]`: assemble four little-endian
bytes.  Also used for `f32::from_le_bytes`, which reassembles the same four
bytes into the value's bit pattern. -/
def u32le (b0 b1 b2 b3 : Nat) : Nat :=
  b0 + 256 * b1 + 65536 * b2 + 16777216 * b3

/-- `u32::to_le_bytes` / `f32::to_le_bytes`: the four little-endian bytes of
a 32-bit word. -/
def toLeBytes (n : Nat) : List Nat :=
  [n % 256, n / 256 % 256, n / 65536 % 256, n / 16777216 % 256]

/-- The comparison of `row.sort_by_key(|(idx, _)| *idx)`: order by index. -/
def entryLe (a b : Nat × Nat) : Bool :=
  decide (a.1 ≤ b.1)

/-- The in-place stable sort `row.sort_by_key(|(idx, _)| *idx)` performed by
`sparse_row_to_bytes`, modelled functionally. -/
def sortByIndex (row : SparseVector) : SparseVector :=
  row.mergeSort entryLe

/-- The eight wire bytes of one entry: u32 LE index, then f32 LE value. -/
def entryBytes (e : Nat × Nat) : List Nat :=
  toLeBytes e.1 ++ toLeBytes e.2

/-- `sparse_row_to_bytes`: sort the row by index, then emit eight bytes per
entry in sorted order. -/
def sparse_row_to_bytes (row : SparseVector) : List Nat :=
  (sortByIndex row).flatMap entryBytes

/-- One iteration of the loop in `sparse_vectors_to_proto`: encode the row
(which sorts it), update the running `max_dim` from the sorted row's last
entry, and push the buffer. -/
def protoStep (acc : List (List Nat) × Int) (row : SparseVector) :
    List (List Nat) × Int :=
  let sorted := sortByIndex row
  let bytes := sorted.flatMap entryBytes
  let dim' := match sorted.getLast? with
    | some e => max acc.2 ((e.1 : Int) + 1)
    | none => acc.2
  (acc.1 ++ [bytes], dim')

/-- `sparse_vectors_to_proto`: encode every row in order, tracking
`max_dim` (initially `0i64`). -/
def sparse_vectors_to_proto (vectors : List SparseVector) : SparseFloatArray :=
  let r := vectors.foldl protoStep ([], 0)
  { contents := r.1, dim := r.2 }

/-- The `chunks_exact(8)` loop of `sparse_row_from_bytes`: decode each full
8-byte chunk, dropping any shorter remainder (`chunks_exact` yields only
complete chunks). -/
def decodeChunks : List Nat → SparseVector
  | b0 :: b1 :: b2 :: b3 :: b4 :: b5 :: b6 :: b7 :: rest =>
      (u32le b0 b1 b2 b3, u32le b4 b5 b6 b7) :: decodeChunks rest
  | _ => []

/-- `sparse_row_from_bytes`: reject buffers whose length is not a multiple
of 8 with `SparseVectorError` carrying that length; otherwise decode the
8-byte chunks in order. -/
def sparse_row_from_bytes (bytes : List Nat) : Except Error SparseVector :=
  if bytes.length % 8 ≠ 0 then
    Except.error (Error.SparseVectorError bytes.length)
  else
    Except.ok (decodeChunks bytes)

/-- `sparse_proto_to_vectors`: decode every buffer of `contents` in order;
the `collect::<Result<_>>` short-circuits at the first failure. -/
def sparse_proto_to_vectors (proto : SparseFloatArray) :
    Except Error (List SparseVector) :=
  proto.contents.mapM sparse_row_from_bytes

/-- NaN recogniser on f32 bit patterns: exponent bits all ones and mantissa
nonzero. -/
def isNaN32 (bits : Nat) : Bool :=
  decide (bits / 2 ^ 23 % 2 ^ 8 = 255 ∧ bits % 2 ^ 23 ≠ 0)

/-- The dimension update of one encoder iteration, isolated from the buffer
bookkeeping of `protoStep` for reasoning about `dim`. -/
def dimStep (d : Int) (row : SparseVector) : Int :=
  match (sortByIndex row).getLast? with
  | some e => max d ((e.1 : Int) + 1)
  | none => d

/-- The `dim` computed by the encoder loop over a whole batch. -/
def batchDim (vectors : List SparseVector) : Int :=
  vectors.foldl dimStep 0

lemma u32le_of_toLeBytes (n : Nat) (h : n < 2 ^ 32) :
    u32le (n % 256) (n / 256 % 256) (n / 65536 % 256) (n / 16777216 % 256) = n := by
  unfold u32le
  omega

lemma toLeBytes_u32le (b0 b1 b2 b3 : Nat) (h0 : b0 < 256) (h1 : b1 < 256)
    (h2 : b2 < 256) (h3 : b3 < 256) :
    toLeBytes (u32le b0 b1 b2 b3) = [b0, b1, b2, b3] := by
  simp only [toLeBytes, u32le, List.cons.injEq, and_true]
  refine ⟨?_, ?_, ?_, ?_⟩ <;> omega

lemma decodeChunks_entryBytes (e : Nat × Nat) (h1 : e.1 < 2 ^ 32)
    (h2 : e.2 < 2 ^ 32) (rest : List Nat) :
    decodeChunks (entryBytes e ++ rest) = e :: decodeChunks rest := by
  obtain ⟨i, v⟩ := e
  simp only [entryBytes, toLeBytes, List.cons_append, List.nil_append]
  rw [decodeChunks, u32le_of_toLeBytes i h1, u32le_of_toLeBytes v h2]

lemma decodeChunks_flatMap (row : SparseVector)
    (h : ∀ e ∈ row, e.1 < 2 ^ 32 ∧ e.2 < 2 ^ 32) :
    decodeChunks (row.flatMap entryBytes) = row := by
  induction row with
  | nil => rfl
  | cons e rest ih =>
    rw [List.flatMap_cons,
      decodeChunks_entryBytes e (h e (by simp)).1 (h e (by simp)).2,
      ih fun x hx => h x (by simp [hx])]

lemma length_flatMap_entryBytes (row : SparseVector) :
    (row.flatMap entryBytes).length = 8 * row.length := by
  induction row with
  | nil => rfl
  | cons e rest ih =>
    rw [List.flatMap_cons, List.length_append, ih]
    simp only [entryBytes, toLeBytes, List.length_append, List.length_cons,
      List.length_nil]
    omega

lemma entryLe_trans (a b c : Nat × Nat) (hab : entryLe a b = true)
    (hbc : entryLe b c = true) : entryLe a c = true := by
  simp only [entryLe, decide_eq_true_eq] at *
  omega

lemma entryLe_total (a b : Nat × Nat) : (entryLe a b || entryLe b a) = true := by
  simp only [entryLe, Bool.or_eq_true, decide_eq_true_eq]
  omega

lemma sortByIndex_perm (row : SparseVector) : (sortByIndex row).Perm row :=
  List.mergeSort_perm row entryLe

lemma mem_sortByIndex {a : Nat × Nat} {row : SparseVector} :
    a ∈ sortByIndex row ↔ a ∈ row :=
  List.mem_mergeSort

lemma sortByIndex_sorted (row : SparseVector) :
    (sortByIndex row).Pairwise fun a b => a.1 ≤ b.1 := by
  have h := List.sorted_mergeSort entryLe_trans entryLe_total row
  exact h.imp fun hab => by simpa [entryLe] using hab

lemma sortByIndex_of_sorted {row : SparseVector}
    (h : row.Pairwise fun a b => a.1 ≤ b.1) : sortByIndex row = row :=
  List.mergeSort_of_sorted (h.imp fun hab => by simpa [entryLe] using hab)

lemma sparse_row_roundtrip (row : SparseVector)
    (h : ∀ e ∈ row, e.1 < 2 ^ 32 ∧ e.2 < 2 ^ 32) :
    sparse_row_from_bytes (sparse_row_to_bytes row) =
      Except.ok (sortByIndex row) := by
  have hlen : (sparse_row_to_bytes row).length = 8 * (sortByIndex row).length :=
    length_flatMap_entryBytes (sortByIndex row)
  have hmod : (sparse_row_to_bytes row).length % 8 = 0 := by omega
  rw [sparse_row_from_bytes, if_neg (by omega)]
  rw [sparse_row_to_bytes,
    decodeChunks_flatMap _ fun e he => h e (mem_sortByIndex.mp he)]

lemma foldl_protoStep (vectors : List SparseVector) (cs : List (List Nat))
    (init : Int) :
    vectors.foldl protoStep (cs, init) =
      (cs ++ vectors.map sparse_row_to_bytes, vectors.foldl dimStep init) := by
  induction vectors generalizing cs init with
  | nil => simp
  | cons row rest ih =>
    rw [List.foldl_cons, List.foldl_cons]
    show rest.foldl protoStep
      (cs ++ [(sortByIndex row).flatMap entryBytes], dimStep init row) = _
    rw [ih]
    simp [sparse_row_to_bytes]

lemma sparse_vectors_to_proto_eq (vectors : List SparseVector) :
    sparse_vectors_to_proto vectors =
      ⟨vectors.map sparse_row_to_bytes, batchDim vectors⟩ := by
  rw [sparse_vectors_to_proto, foldl_protoStep]
  rfl

lemma getLast?_mem {α : Type} {l : List α} {e : α} (h : l.getLast? = some e) :
    e ∈ l := by
  obtain ⟨ys, rfl⟩ := List.getLast?_eq_some_iff.mp h
  simp

lemma sortByIndex_getLast_max {row : SparseVector} {e : Nat × Nat}
    (h : (sortByIndex row).getLast? = some e) :
    e ∈ row ∧ ∀ x ∈ row, x.1 ≤ e.1 := by
  obtain ⟨ys, hconcat⟩ := List.getLast?_eq_some_iff.mp h
  have hsorted := sortByIndex_sorted row
  have hperm := sortByIndex_perm row
  rw [hconcat] at hsorted hperm
  refine ⟨hperm.mem_iff.mp (by simp), fun x hx => ?_⟩
  rcases List.mem_append.mp (hperm.mem_iff.mpr hx) with hy | hl
  · exact (List.pairwise_append.mp hsorted).2.2 x hy e (by simp)
  · rw [List.mem_singleton.mp hl]

lemma sortByIndex_getLast_of_ne {row : SparseVector} (h : row ≠ []) :
    ∃ e, (sortByIndex row).getLast? = some e := by
  have hne : sortByIndex row ≠ [] := by
    intro hnil
    have hp := sortByIndex_perm row
    rw [hnil] at hp
    exact h hp.symm.eq_nil
  cases hgl : (sortByIndex row).getLast? with
  | some e => exact ⟨e, rfl⟩
  | none => exact absurd (List.getLast?_eq_none_iff.mp hgl) hne

lemma dimStep_nil (d : Int) : dimStep d [] = d := by
  rw [dimStep, sortByIndex, List.mergeSort_nil]
  rfl

lemma dimStep_nonneg {d : Int} (hd : 0 ≤ d) (row : SparseVector) :
    0 ≤ dimStep d row := by
  rw [dimStep]
  cases (sortByIndex row).getLast? with
  | none => exact hd
  | some e => simp only []; omega

lemma dimStep_zero_pos {row : SparseVector} (h : row ≠ []) :
    1 ≤ dimStep 0 row := by
  obtain ⟨e, he⟩ := sortByIndex_getLast_of_ne h
  rw [dimStep, he]
  simp only []
  omega

lemma foldl_dimStep_nonneg (vectors : List SparseVector) {init : Int}
    (hinit : 0 ≤ init) : 0 ≤ vectors.foldl dimStep init := by
  induction vectors generalizing init with
  | nil => exact hinit
  | cons row rest ih =>
    rw [List.foldl_cons]
    exact ih (dimStep_nonneg hinit row)

lemma foldl_dimStep_max (vectors : List SparseVector) {init : Int}
    (hinit : 0 ≤ init) :
    vectors.foldl dimStep init = max init (vectors.foldl dimStep 0) := by
  induction vectors generalizing init with
  | nil =>
    simp only [List.foldl_nil]
    omega
  | cons row rest ih =>
    rw [List.foldl_cons, List.foldl_cons, ih (dimStep_nonneg hinit row),
      ih (dimStep_nonneg le_rfl row)]
    have hrest := foldl_dimStep_nonneg rest (le_refl 0)
    unfold dimStep
    cases (sortByIndex row).getLast? with
    | none =>
      simp only []
      omega
    | some e =>
      simp only []
      omega

lemma batchDim_cons (row : SparseVector) (rest : List SparseVector) :
    batchDim (row :: rest) = max (dimStep 0 row) (batchDim rest) := by
  rw [batchDim, List.foldl_cons, foldl_dimStep_max rest (dimStep_nonneg le_rfl row)]
  rfl

lemma batchDim_nonneg (vectors : List SparseVector) : 0 ≤ batchDim vectors :=
  foldl_dimStep_nonneg vectors le_rfl

lemma batchDim_eq_zero_iff (vectors : List SparseVector) :
    batchDim vectors = 0 ↔ ∀ row ∈ vectors, row = [] := by
  induction vectors with
  | nil => simp [batchDim]
  | cons row rest ih =>
    rw [batchDim_cons]
    constructor
    · intro h
      have h1 := batchDim_nonneg rest
      have h2 := dimStep_nonneg le_rfl row
      have hrow : row = [] := by
        by_contra hne
        have := dimStep_zero_pos hne
        omega
      have hrest : ∀ r ∈ rest, r = [] := ih.mp (by omega)
      intro r hr
      rcases List.mem_cons.mp hr with h | h
      · exact h ▸ hrow
      · exact hrest r h
    · intro h
      have hrow : row = [] := h row (by simp)
      have hrest : batchDim rest = 0 := ih.mpr fun r hr => h r (by simp [hr])
      rw [hrow, dimStep_nil, hrest]
      simp

lemma batchDim_le {vectors : List SparseVector} {m : Nat}
    (h : ∀ row ∈ vectors, ∀ e ∈ row, e.1 ≤ m) :
    batchDim vectors ≤ (m : Int) + 1 := by
  induction vectors with
  | nil => simp [batchDim]; omega
  | cons row rest ih =>
    rw [batchDim_cons]
    have hrest := ih fun r hr => h r (by simp [hr])
    have hrow : dimStep 0 row ≤ (m : Int) + 1 := by
      rw [dimStep]
      cases hgl : (sortByIndex row).getLast? with
      | none => simp; omega
      | some e =>
        have hmem := (sortByIndex_getLast_max hgl).1
        have hle : e.1 ≤ m := h row (by simp) e hmem
        simp only []
        omega
    omega

lemma batchDim_ge {vectors : List SparseVector} {row : SparseVector}
    {m val : Nat} (hrow : row ∈ vectors) (hm : (m, val) ∈ row) :
    (m : Int) + 1 ≤ batchDim vectors := by
  induction vectors with
  | nil => cases hrow
  | cons head rest ih =>
    rw [batchDim_cons]
    rcases List.mem_cons.mp hrow with h | h
    · subst h
      have hne : row ≠ [] := fun hnil => by rw [hnil] at hm; cases hm
      obtain ⟨e, he⟩ := sortByIndex_getLast_of_ne hne
      have hmax := (sortByIndex_getLast_max he).2 (m, val) hm
      rw [dimStep, he]
      simp only [] at hmax ⊢
      have h0 := batchDim_nonneg rest
      omega
    · have := ih h
      have := dimStep_nonneg le_rfl head
      omega

lemma batch_max_exists {vectors : List SparseVector}
    (h : ∃ row ∈ vectors, row ≠ []) :
    ∃ m val row, row ∈ vectors ∧ (m, val) ∈ row ∧
      ∀ row' ∈ vectors, ∀ e ∈ row', e.1 ≤ m := by
  induction vectors with
  | nil => obtain ⟨row, hmem, -⟩ := h; cases hmem
  | cons head rest ih =>
    by_cases hrest : ∃ row ∈ rest, row ≠ []
    · obtain ⟨m, val, row, hrow, hm, hmax⟩ := ih hrest
      by_cases hhead : head = []
      · exact ⟨m, val, row, by simp [hrow], hm, fun r hr e he => by
          rcases List.mem_cons.mp hr with h' | h'
          · rw [h', hhead] at he; cases he
          · exact hmax r h' e he⟩
      · obtain ⟨e, he⟩ := sortByIndex_getLast_of_ne hhead
        obtain ⟨hemem, hemax⟩ := sortByIndex_getLast_max he
        by_cases hcmp : e.1 ≤ m
        · exact ⟨m, val, row, by simp [hrow], hm, fun r hr x hx => by
            rcases List.mem_cons.mp hr with h' | h'
            · exact le_trans (hemax x (h' ▸ hx)) hcmp
            · exact hmax r h' x hx⟩
        · exact ⟨e.1, e.2, head, by simp, hemem, fun r hr x hx => by
            rcases List.mem_cons.mp hr with h' | h'
            · exact hemax x (h' ▸ hx)
            · exact le_trans (hmax r h' x hx) (by omega)⟩
    · obtain ⟨row, hmem, hne⟩ := h
      have hhead : head ≠ [] := by
        rcases List.mem_cons.mp hmem with h' | h'
        · exact h' ▸ hne
        · exact absurd ⟨row, h', hne⟩ hrest
      obtain ⟨e, he⟩ := sortByIndex_getLast_of_ne hhead
      obtain ⟨hemem, hemax⟩ := sortByIndex_getLast_max he
      refine ⟨e.1, e.2, head, by simp, hemem, fun r hr x hx => ?_⟩
      rcases List.mem_cons.mp hr with h' | h'
      · exact hemax x (h' ▸ hx)
      · have : r = [] := by
          by_contra hc
          exact hrest ⟨r, h', hc⟩
        rw [this] at hx; cases hx

lemma not_cons8_facts : ∀ t : List Nat,
    (∀ (b0 b1 b2 b3 b4 b5 b6 b7 : Nat) (rest : List Nat),
      t = b0 :: b1 :: b2 :: b3 :: b4 :: b5 :: b6 :: b7 :: rest → False) →
    decodeChunks t = [] ∧ t.length < 8
  | [], _ => ⟨rfl, by simp⟩
  | [_], _ => ⟨rfl, by simp⟩
  | [_, _], _ => ⟨rfl, by simp⟩
  | [_, _, _], _ => ⟨rfl, by simp⟩
  | [_, _, _, _], _ => ⟨rfl, by simp⟩
  | [_, _, _, _, _], _ => ⟨rfl, by simp⟩
  | [_, _, _, _, _, _], _ => ⟨rfl, by simp⟩
  | [_, _, _, _, _, _, _], _ => ⟨rfl, by simp⟩
  | b0 :: b1 :: b2 :: b3 :: b4 :: b5 :: b6 :: b7 :: rest, h =>
      (h b0 b1 b2 b3 b4 b5 b6 b7 rest rfl).elim

lemma getD_cons8 (b0 b1 b2 b3 b4 b5 b6 b7 : Nat) (rest : List Nat) (n : Nat) :
    (b0 :: b1 :: b2 :: b3 :: b4 :: b5 :: b6 :: b7 :: rest).getD (n + 8) 0 =
      rest.getD n 0 := by
  rw [show n + 8 = n + 7 + 1 from rfl, List.getD_cons_succ,
    show n + 7 = n + 6 + 1 from rfl, List.getD_cons_succ,
    show n + 6 = n + 5 + 1 from rfl, List.getD_cons_succ,
    show n + 5 = n + 4 + 1 from rfl, List.getD_cons_succ,
    show n + 4 = n + 3 + 1 from rfl, List.getD_cons_succ,
    show n + 3 = n + 2 + 1 from rfl, List.getD_cons_succ,
    show n + 2 = n + 1 + 1 from rfl, List.getD_cons_succ,
    List.getD_cons_succ]

lemma length_decodeChunks (bytes : List Nat) :
    (decodeChunks bytes).length = bytes.length / 8 := by
  induction bytes using decodeChunks.induct with
  | case1 b0 b1 b2 b3 b4 b5 b6 b7 rest ih =>
    rw [decodeChunks]
    simp only [List.length_cons]
    omega
  | case2 t h =>
    obtain ⟨hnil, hshort⟩ := not_cons8_facts t h
    rw [hnil]
    simp only [List.length_nil]
    omega

lemma decodeChunks_getD (bytes : List Nat) :
    ∀ i, i < (decodeChunks bytes).length →
      ((decodeChunks bytes).getD i (0, 0)).1 =
          bytes.getD (8 * i) 0 + 256 * bytes.getD (8 * i + 1) 0 +
            65536 * bytes.getD (8 * i + 2) 0 +
            16777216 * bytes.getD (8 * i + 3) 0 ∧
      ((decodeChunks bytes).getD i (0, 0)).2 =
          bytes.getD (8 * i + 4) 0 + 256 * bytes.getD (8 * i + 5) 0 +
            65536 * bytes.getD (8 * i + 6) 0 +
            16777216 * bytes.getD (8 * i + 7) 0 := by
  induction bytes using decodeChunks.induct with
  | case1 b0 b1 b2 b3 b4 b5 b6 b7 rest ih =>
    intro i hi
    cases i with
    | zero => exact ⟨rfl, rfl⟩
    | succ i' =>
      rw [decodeChunks] at hi
      have hi' : i' < (decodeChunks rest).length := by
        simp only [List.length_cons] at hi
        omega
      have h := ih i' hi'
      rw [decodeChunks, List.getD_cons_succ,
        show 8 * (i' + 1) = 8 * i' + 8 by omega, getD_cons8,
        show 8 * i' + 8 + 1 = 8 * i' + 1 + 8 by omega, getD_cons8,
        show 8 * i' + 8 + 2 = 8 * i' + 2 + 8 by omega, getD_cons8,
        show 8 * i' + 8 + 3 = 8 * i' + 3 + 8 by omega, getD_cons8,
        show 8 * i' + 8 + 4 = 8 * i' + 4 + 8 by omega, getD_cons8,
        show 8 * i' + 8 + 5 = 8 * i' + 5 + 8 by omega, getD_cons8,
        show 8 * i' + 8 + 6 = 8 * i' + 6 + 8 by omega, getD_cons8,
        show 8 * i' + 8 + 7 = 8 * i' + 7 + 8 by omega, getD_cons8]
      exact h
  | case2 t h =>
    intro i hi
    rw [(not_cons8_facts t h).1] at hi
    cases hi

lemma flatMap_decodeChunks (bytes : List Nat) (hlen : bytes.length % 8 = 0)
    (hbyte : ∀ x ∈ bytes, x < 256) :
    (decodeChunks bytes).flatMap entryBytes = bytes := by
  induction bytes using decodeChunks.induct with
  | case1 b0 b1 b2 b3 b4 b5 b6 b7 rest ih =>
    have h0 : b0 < 256 := hbyte _ (by simp)
    have h1 : b1 < 256 := hbyte _ (by simp)
    have h2 : b2 < 256 := hbyte _ (by simp)
    have h3 : b3 < 256 := hbyte _ (by simp)
    have h4 : b4 < 256 := hbyte _ (by simp)
    have h5 : b5 < 256 := hbyte _ (by simp)
    have h6 : b6 < 256 := hbyte _ (by simp)
    have h7 : b7 < 256 := hbyte _ (by simp)
    have hlen' : rest.length % 8 = 0 := by
      simp only [List.length_cons] at hlen
      omega
    rw [decodeChunks, List.flatMap_cons,
      show entryBytes (u32le b0 b1 b2 b3, u32le b4 b5 b6 b7) =
        toLeBytes (u32le b0 b1 b2 b3) ++ toLeBytes (u32le b4 b5 b6 b7) from rfl,
      toLeBytes_u32le _ _ _ _ h0 h1 h2 h3, toLeBytes_u32le _ _ _ _ h4 h5 h6 h7,
      ih hlen' fun x hx => hbyte x (by simp [hx])]
    rfl
  | case2 t h =>
    obtain ⟨hnil, hshort⟩ := not_cons8_facts t h
    have : t = [] := List.eq_nil_of_length_eq_zero (by omega)
    rw [this]
    rfl

lemma mapM_decode_ok (contents : List (List Nat))
    (h : ∀ b ∈ contents, b.length % 8 = 0) :
    contents.mapM sparse_row_from_bytes =
      Except.ok (contents.map decodeChunks) := by
  induction contents with
  | nil => rfl
  | cons b rest ih =>
    have hb : sparse_row_from_bytes b = Except.ok (decodeChunks b) := by
      have := h b (by simp)
      rw [sparse_row_from_bytes, if_neg (by omega)]
    rw [List.mapM_cons, hb, ih fun x hx => h x (by simp [hx])]
    rfl

lemma mapM_decode_error (contents : List (List Nat)) :
    ∀ i, i < contents.length →
      (contents.getD i []).length % 8 ≠ 0 →
      (∀ j, j < i → (contents.getD j []).length % 8 = 0) →
      contents.mapM sparse_row_from_bytes =
        Except.error (Error.SparseVectorError (contents.getD i []).length) := by
  induction contents with
  | nil => intro i hi; cases hi
  | cons b rest ih =>
    intro i hi hbad hgood
    cases i with
    | zero =>
      simp only [List.getD_cons_zero] at hbad ⊢
      rw [List.mapM_cons, sparse_row_from_bytes, if_pos hbad]
      rfl
    | succ i' =>
      have hb : b.length % 8 = 0 := by
        have := hgood 0 (Nat.succ_pos i')
        simpa using this
      have hbok : sparse_row_from_bytes b = Except.ok (decodeChunks b) := by
        rw [sparse_row_from_bytes, if_neg (by omega)]
      simp only [List.getD_cons_succ] at hbad ⊢
      rw [List.mapM_cons, hbok,
        ih i' (by simpa using hi) hbad fun j hj => by
          have := hgood (j + 1) (by omega)
          simpa using this]
      rfl

lemma decode_encode_batch (vectors : List SparseVector)
    (hwf : ∀ row ∈ vectors, ∀ e ∈ row, e.1 < 2 ^ 32 ∧ e.2 < 2 ^ 32) :
    (vectors.map sparse_row_to_bytes).mapM sparse_row_from_bytes =
      Except.ok (vectors.map sortByIndex) := by
  induction vectors with
  | nil => rfl
  | cons row rest ih =>
    rw [List.map_cons, List.mapM_cons,
      sparse_row_roundtrip row (hwf row (by simp)),
      ih fun r hr => hwf r (by simp [hr])]
    rfl

lemma forall₂_map_self {α β : Type} {P : β → α → Prop} {f : α → β}
    {l : List α} (h : ∀ x ∈ l, P (f x) x) : List.Forall₂ P (l.map f) l := by
  induction l with
  | nil => exact List.Forall₂.nil
  | cons x xs ih =>
    exact List.Forall₂.cons (h x (by simp)) (ih fun y hy => h y (by simp [hy]))

lemma forall₂_self_map {α β : Type} {P : α → β → Prop} {f : α → β}
    {l : List α} (h : ∀ x ∈ l, P x (f x)) : List.Forall₂ P l (l.map f) := by
  induction l with
  | nil => exact List.Forall₂.nil
  | cons x xs ih =>
    exact List.Forall₂.cons (h x (by simp)) (ih fun y hy => h y (by simp [hy]))

/-- C1: for every batch of sparse vectors in which no value is NaN and every
index lies in `0 .. 2^32 - 2`, decoding the encoded batch
(`sparse_proto_to_vectors` after `sparse_vectors_to_proto`) succeeds and
yields, for each row, the same multiset of (index, value) pairs as that input
row, arranged in ascending order of index. -/
theorem sparse_roundtrip_multiset_sorted (vectors : List SparseVector)
    (hidx : ∀ row ∈ vectors, ∀ e ∈ row, e.1 ≤ 2 ^ 32 - 2)
    (hval : ∀ row ∈ vectors, ∀ e ∈ row, e.2 < 2 ^ 32 ∧ isNaN32 e.2 = false) :
    ∃ decoded,
      sparse_proto_to_vectors (sparse_vectors_to_proto vectors) =
        Except.ok decoded ∧
      List.Forall₂
        (fun d r : SparseVector =>
          (d : Multiset (Nat × Nat)) = (r : Multiset (Nat × Nat)) ∧
          d.Pairwise fun a b => a.1 ≤ b.1)
        decoded vectors := by
  have hwf : ∀ row ∈ vectors, ∀ e ∈ row, e.1 < 2 ^ 32 ∧ e.2 < 2 ^ 32 :=
    fun row hr e he => ⟨by have := hidx row hr e he; omega, (hval row hr e he).1⟩
  refine ⟨vectors.map sortByIndex, ?_, ?_⟩
  · rw [sparse_vectors_to_proto_eq, sparse_proto_to_vectors]
    exact decode_encode_batch vectors hwf
  · exact forall₂_map_self fun row _ =>
      ⟨Multiset.coe_eq_coe.mpr (sortByIndex_perm row), sortByIndex_sorted row⟩

/-- C2: the `dim` of the wire message equals 0 iff every row of the batch is
empty (including an empty batch); otherwise it equals 1 plus the maximum index
over all entries in all rows. -/
theorem sparse_dim_zero_iff_and_max (vectors : List SparseVector) :
    ((sparse_vectors_to_proto vectors).dim = 0 ↔ ∀ row ∈ vectors, row = []) ∧
    ((∃ row ∈ vectors, row ≠ []) →
      ∃ m val row, row ∈ vectors ∧ (m, val) ∈ row ∧
        (∀ row' ∈ vectors, ∀ e ∈ row', e.1 ≤ m) ∧
        (sparse_vectors_to_proto vectors).dim = (m : Int) + 1) := by
  rw [sparse_vectors_to_proto_eq]
  refine ⟨batchDim_eq_zero_iff vectors, fun h => ?_⟩
  obtain ⟨m, val, row, hrow, hm, hmax⟩ := batch_max_exists h
  exact ⟨m, val, row, hrow, hm, hmax,
    le_antisymm (batchDim_le hmax) (batchDim_ge hrow hm)⟩

/-- C3: every encoded row buffer has length exactly `8 * entry_count` (an
empty row yields an empty buffer), and `sparse_row_from_bytes` returns an
error iff the buffer length is not a multiple of 8, that error being
`SparseVectorError` carrying the offending byte length.  The decoder is a
total function into `Except`, so a distinguishable error — not a panic or a
silent truncation — is the only failure behaviour. -/
theorem sparse_row_length_invariant :
    (∀ row : SparseVector, (sparse_row_to_bytes row).length = 8 * row.length) ∧
    ∀ bytes : List Nat,
      ((∃ e, sparse_row_from_bytes bytes = Except.error e) ↔
        bytes.length % 8 ≠ 0) ∧
      (bytes.length % 8 ≠ 0 →
        sparse_row_from_bytes bytes =
          Except.error (Error.SparseVectorError bytes.length)) := by
  refine ⟨fun row => ?_, fun bytes => ⟨⟨?_, ?_⟩, ?_⟩⟩
  · rw [sparse_row_to_bytes, length_flatMap_entryBytes, sortByIndex,
      List.length_mergeSort]
  · rintro ⟨e, he⟩ hmod
    rw [sparse_row_from_bytes, if_neg (by omega)] at he
    cases he
  · intro hmod
    exact ⟨_, by rw [sparse_row_from_bytes, if_pos hmod]⟩
  · intro hmod
    rw [sparse_row_from_bytes, if_pos hmod]

/-- C4: on a buffer whose length is a multiple of 8, `sparse_row_from_bytes`
succeeds with exactly `length / 8` entries, the `i`-th entry being the
little-endian u32 of bytes `8i .. 8i+3` (the index) paired with the
little-endian 32-bit value of bytes `8i+4 .. 8i+7`, preserving chunk order.
It succeeds for arbitrary byte contents: ascending index order is not
re-validated. -/
theorem sparse_row_decode_spec (bytes : List Nat)
    (hlen : bytes.length % 8 = 0) :
    ∃ row, sparse_row_from_bytes bytes = Except.ok row ∧
      row.length = bytes.length / 8 ∧
      ∀ i, i < row.length →
        (row.getD i (0, 0)).1 =
          bytes.getD (8 * i) 0 + 256 * bytes.getD (8 * i + 1) 0 +
            65536 * bytes.getD (8 * i + 2) 0 +
            16777216 * bytes.getD (8 * i + 3) 0 ∧
        (row.getD i (0, 0)).2 =
          bytes.getD (8 * i + 4) 0 + 256 * bytes.getD (8 * i + 5) 0 +
            65536 * bytes.getD (8 * i + 6) 0 +
            16777216 * bytes.getD (8 * i + 7) 0 :=
  ⟨decodeChunks bytes, by rw [sparse_row_from_bytes, if_neg (by omega)],
    length_decodeChunks bytes, decodeChunks_getD bytes⟩

/-- C5: `sparse_proto_to_vectors` succeeds with one decoded row per buffer,
in buffer order, when every buffer decodes; otherwise it fails with the
`SparseVectorError` of the first buffer (in `contents` order) whose length is
not a multiple of 8, returning no partial sequence of decoded rows. -/
theorem sparse_proto_decode_all_or_nothing (proto : SparseFloatArray) :
    ((∀ b ∈ proto.contents, b.length % 8 = 0) →
      ∃ decoded, sparse_proto_to_vectors proto = Except.ok decoded ∧
        List.Forall₂ (fun b d => sparse_row_from_bytes b = Except.ok d)
          proto.contents decoded) ∧
    ∀ i, i < proto.contents.length →
      (proto.contents.getD i []).length % 8 ≠ 0 →
      (∀ j, j < i → (proto.contents.getD j []).length % 8 = 0) →
      sparse_proto_to_vectors proto =
        Except.error
          (Error.SparseVectorError (proto.contents.getD i []).length) := by
  constructor
  · intro h
    refine ⟨proto.contents.map decodeChunks, mapM_decode_ok proto.contents h,
      forall₂_self_map fun b hb => ?_⟩
    rw [sparse_row_from_bytes, if_neg (by have := h b hb; omega)]
  · intro i hi hbad hgood
    exact mapM_decode_error proto.contents i hi hbad hgood

/-- C6: after encoding, the decoded entries of the produced buffer are in
non-decreasing index order, and two entries of the original row sharing an
index keep their original relative order — the sort is stable. -/
theorem sparse_row_encode_sorted_stable (row : SparseVector)
    (hwf : ∀ e ∈ row, e.1 < 2 ^ 32 ∧ e.2 < 2 ^ 32) :
    ∃ decoded,
      sparse_row_from_bytes (sparse_row_to_bytes row) = Except.ok decoded ∧
      decoded.Pairwise (fun a b => a.1 ≤ b.1) ∧
      ∀ a b : Nat × Nat, a.1 = b.1 →
        [a, b].Sublist row → [a, b].Sublist decoded := by
  refine ⟨sortByIndex row, sparse_row_roundtrip row hwf,
    sortByIndex_sorted row, fun a b hab hsub => ?_⟩
  exact List.pair_sublist_mergeSort entryLe_trans entryLe_total
    (by simp only [entryLe, decide_eq_true_eq]; exact hab.le) hsub

/-- C7: `sparse_vectors_to_proto` is a total function (its Lean type, like
its Rust signature, has no error outcome) and its `contents` holds exactly
one byte buffer per input row, the `i`-th buffer encoding the `i`-th row. -/
theorem sparse_vectors_to_proto_total_per_row (vectors : List SparseVector) :
    (sparse_vectors_to_proto vectors).contents =
      vectors.map sparse_row_to_bytes ∧
    (sparse_vectors_to_proto vectors).contents.length = vectors.length := by
  rw [sparse_vectors_to_proto_eq]
  exact ⟨rfl, by simp⟩

/-- C8: decoding depends only on `contents`, never on `dim`: two wire
messages with equal contents and arbitrary different `dim` values decode
identically. -/
theorem sparse_decode_ignores_dim (contents : List (List Nat))
    (dim1 dim2 : Int) :
    sparse_proto_to_vectors ⟨contents, dim1⟩ =
      sparse_proto_to_vectors ⟨contents, dim2⟩ := rfl

/-- C9: a batch containing an entry with the reserved index `2^32 - 1`
encodes without rejection or alteration, the computed `dim` is exactly
`2^32` (the u32-to-i64 conversion followed by `+ 1` cannot overflow), and
the entry round-trips through decode unchanged. -/
theorem sparse_reserved_index_dim_roundtrip (vectors : List SparseVector)
    (hwf : ∀ row ∈ vectors, ∀ e ∈ row, e.1 < 2 ^ 32 ∧ e.2 < 2 ^ 32)
    (hmem : ∃ row ∈ vectors, ∃ val, (2 ^ 32 - 1, val) ∈ row) :
    (sparse_vectors_to_proto vectors).dim = 2 ^ 32 ∧
    ∃ decoded,
      sparse_proto_to_vectors (sparse_vectors_to_proto vectors) =
        Except.ok decoded ∧
      List.Forall₂ (fun d r => d.Perm r) decoded vectors ∧
      ∀ val, (∃ row ∈ vectors, (2 ^ 32 - 1, val) ∈ row) →
        ∃ d ∈ decoded, (2 ^ 32 - 1, val) ∈ d := by
  obtain ⟨row₀, hrow₀, val₀, hval₀⟩ := hmem
  constructor
  · rw [sparse_vectors_to_proto_eq]
    have hub : ∀ r ∈ vectors, ∀ e ∈ r, e.1 ≤ 2 ^ 32 - 1 := fun r hr e he => by
      have := (hwf r hr e he).1
      omega
    have hge := batchDim_ge hrow₀ hval₀
    have hle := batchDim_le hub
    show batchDim vectors = 2 ^ 32
    omega
  · refine ⟨vectors.map sortByIndex, ?_,
      forall₂_map_self fun r _ => sortByIndex_perm r, ?_⟩
    · rw [sparse_vectors_to_proto_eq, sparse_proto_to_vectors]
      exact decode_encode_batch vectors hwf
    · rintro val ⟨r, hr, hv⟩
      exact ⟨sortByIndex r, List.mem_map_of_mem _ hr, mem_sortByIndex.mpr hv⟩

/-- C10: wire-side inverse round-trip — if every buffer of a wire message has
length a multiple of 8, holds bytes below 256, and decodes to entries already
in ascending index order, then re-encoding the decoded rows reproduces the
original `contents` byte-for-byte. -/
theorem sparse_wire_roundtrip (proto : SparseFloatArray)
    (hlen : ∀ b ∈ proto.contents, b.length % 8 = 0)
    (hbyte : ∀ b ∈ proto.contents, ∀ x ∈ b, x < 256)
    (hsorted : ∀ b ∈ proto.contents, ∀ row,
      sparse_row_from_bytes b = Except.ok row →
        row.Pairwise fun a c => a.1 ≤ c.1) :
    ∃ decoded, sparse_proto_to_vectors proto = Except.ok decoded ∧
      (sparse_vectors_to_proto decoded).contents = proto.contents := by
  refine ⟨proto.contents.map decodeChunks, mapM_decode_ok proto.contents hlen, ?_⟩
  rw [sparse_vectors_to_proto_eq]
  show (proto.contents.map decodeChunks).map sparse_row_to_bytes =
    proto.contents
  rw [List.map_map]
  have hone : ∀ b ∈ proto.contents, sparse_row_to_bytes (decodeChunks b) = b := by
    intro b hb
    have hdec : sparse_row_from_bytes b = Except.ok (decodeChunks b) := by
      rw [sparse_row_from_bytes, if_neg (by have := hlen b hb; omega)]
    rw [sparse_row_to_bytes, sortByIndex_of_sorted (hsorted b hb _ hdec),
      flatMap_decodeChunks b (hlen b hb) (hbyte b hb)]
  calc proto.contents.map (sparse_row_to_bytes ∘ decodeChunks)
      = proto.contents.map id := List.map_congr_left fun b hb => hone b hb
    _ = proto.contents := List.map_id _

/-- Witness for C1 at the one-row batch `[[(5, bits of 1.0f32)]]`. -/
theorem sparse_roundtrip_multiset_sorted_witness :
    (∀ row ∈ [[((5 : Nat), (1065353216 : Nat))]], ∀ e ∈ row,
      e.1 ≤ 2 ^ 32 - 2) ∧
    (∀ row ∈ [[((5 : Nat), (1065353216 : Nat))]], ∀ e ∈ row,
      e.2 < 2 ^ 32 ∧ isNaN32 e.2 = false) ∧
    ∃ decoded,
      sparse_proto_to_vectors
          (sparse_vectors_to_proto [[((5 : Nat), (1065353216 : Nat))]]) =
        Except.ok decoded ∧
      List.Forall₂
        (fun d r : SparseVector =>
          (d : Multiset (Nat × Nat)) = (r : Multiset (Nat × Nat)) ∧
          d.Pairwise fun a b => a.1 ≤ b.1)
        decoded [[((5 : Nat), (1065353216 : Nat))]] :=
  ⟨by decide, by decide,
    sparse_roundtrip_multiset_sorted _ (by decide) (by decide)⟩

/-- Witness for C2 at the nonempty batch `[[(5, 7)]]`. -/
theorem sparse_dim_zero_iff_and_max_witness :
    (∃ row ∈ [[((5 : Nat), (7 : Nat))]], row ≠ []) ∧
    ∃ m val row, row ∈ [[((5 : Nat), (7 : Nat))]] ∧ (m, val) ∈ row ∧
      (∀ row' ∈ [[((5 : Nat), (7 : Nat))]], ∀ e ∈ row', e.1 ≤ m) ∧
      (sparse_vectors_to_proto [[((5 : Nat), (7 : Nat))]]).dim = (m : Int) + 1 :=
  ⟨by decide,
    (sparse_dim_zero_iff_and_max [[((5 : Nat), (7 : Nat))]]).2 (by decide)⟩

/-- Witness for C3: a 7-byte buffer is rejected with the error carrying 7. -/
theorem sparse_row_length_invariant_witness :
    ([0, 0, 0, 0, 0, 0, 0] : List Nat).length % 8 ≠ 0 ∧
    sparse_row_from_bytes [0, 0, 0, 0, 0, 0, 0] =
      Except.error (Error.SparseVectorError 7) :=
  ⟨by decide,
    (sparse_row_length_invariant.2 [0, 0, 0, 0, 0, 0, 0]).2 (by decide)⟩

/-- Witness for C4 at the 8-byte buffer `[5, 0, 0, 0, 7, 0, 0, 0]`. -/
theorem sparse_row_decode_spec_witness :
    ([5, 0, 0, 0, 7, 0, 0, 0] : List Nat).length % 8 = 0 ∧
    ∃ row, sparse_row_from_bytes [5, 0, 0, 0, 7, 0, 0, 0] = Except.ok row ∧
      row.length = ([5, 0, 0, 0, 7, 0, 0, 0] : List Nat).length / 8 ∧
      ∀ i, i < row.length →
        (row.getD i (0, 0)).1 =
          ([5, 0, 0, 0, 7, 0, 0, 0] : List Nat).getD (8 * i) 0 +
            256 * ([5, 0, 0, 0, 7, 0, 0, 0] : List Nat).getD (8 * i + 1) 0 +
            65536 * ([5, 0, 0, 0, 7, 0, 0, 0] : List Nat).getD (8 * i + 2) 0 +
            16777216 * ([5, 0, 0, 0, 7, 0, 0, 0] : List Nat).getD (8 * i + 3) 0 ∧
        (row.getD i (0, 0)).2 =
          ([5, 0, 0, 0, 7, 0, 0, 0] : List Nat).getD (8 * i + 4) 0 +
            256 * ([5, 0, 0, 0, 7, 0, 0, 0] : List Nat).getD (8 * i + 5) 0 +
            65536 * ([5, 0, 0, 0, 7, 0, 0, 0] : List Nat).getD (8 * i + 6) 0 +
            16777216 * ([5, 0, 0, 0, 7, 0, 0, 0] : List Nat).getD (8 * i + 7) 0 :=
  ⟨by decide, sparse_row_decode_spec [5, 0, 0, 0, 7, 0, 0, 0] (by decide)⟩

/-- Witness for C5: the second buffer has length 3, so the whole batch decode
fails with the error carrying 3. -/
theorem sparse_proto_decode_all_or_nothing_witness :
    sparse_proto_to_vectors ⟨[[1, 0, 0, 0, 2, 0, 0, 0], [9, 9, 9]], 0⟩ =
      Except.error (Error.SparseVectorError 3) :=
  (sparse_proto_decode_all_or_nothing
      ⟨[[1, 0, 0, 0, 2, 0, 0, 0], [9, 9, 9]], 0⟩).2
    1 (by decide) (by decide)
    (by
      intro j hj
      have hj0 : j = 0 := by omega
      subst hj0
      decide)

/-- Witness for C6 at a row with a duplicate index. -/
theorem sparse_row_encode_sorted_stable_witness :
    (∀ e ∈ ([(5, 1), (5, 2), (3, 3)] : SparseVector),
      e.1 < 2 ^ 32 ∧ e.2 < 2 ^ 32) ∧
    ∃ decoded,
      sparse_row_from_bytes
          (sparse_row_to_bytes [(5, 1), (5, 2), (3, 3)]) =
        Except.ok decoded ∧
      decoded.Pairwise (fun a b => a.1 ≤ b.1) ∧
      ∀ a b : Nat × Nat, a.1 = b.1 →
        [a, b].Sublist ([(5, 1), (5, 2), (3, 3)] : SparseVector) →
          [a, b].Sublist decoded :=
  ⟨by decide, sparse_row_encode_sorted_stable _ (by decide)⟩

/-- Witness for C9 at the batch `[[(2^32 - 1, 7)]]`. -/
theorem sparse_reserved_index_dim_roundtrip_witness :
    (sparse_vectors_to_proto [[(2 ^ 32 - 1, 7)]]).dim = 2 ^ 32 ∧
    ∃ decoded,
      sparse_proto_to_vectors
          (sparse_vectors_to_proto [[(2 ^ 32 - 1, 7)]]) =
        Except.ok decoded ∧
      List.Forall₂ (fun d r => d.Perm r) decoded
        ([[(2 ^ 32 - 1, 7)]] : List SparseVector) ∧
      ∀ val, (∃ row ∈ ([[(2 ^ 32 - 1, 7)]] : List SparseVector),
          (2 ^ 32 - 1, val) ∈ row) →
        ∃ d ∈ decoded, (2 ^ 32 - 1, val) ∈ d :=
  sparse_reserved_index_dim_roundtrip [[(2 ^ 32 - 1, 7)]] (by decide)
    ⟨[(2 ^ 32 - 1, 7)], by decide, 7, by decide⟩

/-- Witness for C10 at a one-buffer message that is already sorted. -/
theorem sparse_wire_roundtrip_witness :
    ∃ decoded,
      sparse_proto_to_vectors ⟨[[5, 0, 0, 0, 7, 0, 0, 0]], 6⟩ =
        Except.ok decoded ∧
      (sparse_vectors_to_proto decoded).contents =
        [[5, 0, 0, 0, 7, 0, 0, 0]] :=
  sparse_wire_roundtrip ⟨[[5, 0, 0, 0, 7, 0, 0, 0]], 6⟩ (by decide) (by decide)
    (by
      intro b hb row hrow
      simp only [List.mem_singleton] at hb
      subst hb
      rw [show sparse_row_from_bytes [5, 0, 0, 0, 7, 0, 0, 0] =
        Except.ok [((5 : Nat), (7 : Nat))] from rfl] at hrow
      cases hrow
      exact List.pairwise_singleton _ _)

end Milvus
